import Mathlib

/-!
# Verification of `operators.py` (robust-nets wavelet reconstruction)

Shallow embedding of the measurement-operator module: complex-tensor
helpers, the soft-shrinkage proximal map, the Euclidean l2-ball
projection, the periodic finite-difference (TV) analysis operator, the
subsampled Fourier operator with its Tikhonov solve, the Haar wavelet
operator, and the custom backward rule of the differentiable CG solver
layer.

Modelling conventions:
* float tensors are modelled in exact arithmetic (`ℚ`, `ℝ` or `ℂ`);
* a 2D image with periodic index semantics is a function
  `ZMod n1 × ZMod n2 → α` (matching python's mod-`n` indexing used by
  `circshift` and negative tensor indices);
* the two-channel real/imaginary layout together with
  `prep_fft_channel`/`unprep_fft_channel` is modelled by working with
  `ℂ`-valued grids directly (those two functions are mutually inverse
  layout permutations composed symmetrically around every FFT call);
* `torch.fft`/`torch.ifft` (`signal_ndim=2`) are the standard 2D DFTs
  with kernel `exp (-2πi jk/n)`, expressed through `ZMod.stdAddChar`;
* fallible methods (`inv` raising `NotImplementedError`) return
  `Except` and are threaded with an explicit operator-state value.
-/

open Finset

/-! ## Complex-tensor utilities (`mult_complex` and `div_complex` from the source) -/

/-- Source `mult_complex` from the source: complex product computed from real and
imaginary parts. -/
def mult_complex (x y : ℂ) : ℂ :=
  ⟨x.re * y.re - x.im * y.im, x.re * y.im + x.im * y.re⟩

/-- Source `div_complex` from the source: complex quotient computed from real and
imaginary parts, with denominator `y.re^2 + y.im^2`. -/
noncomputable def div_complex (x y : ℂ) : ℂ :=
  ⟨(x.re * y.re + x.im * y.im) / (y.re ^ 2 + y.im ^ 2),
   (x.im * y.re - x.re * y.im) / (y.re ^ 2 + y.im ^ 2)⟩

theorem mult_complex_eq_mul (x y : ℂ) : mult_complex x y = x * y := by
  apply Complex.ext <;> simp [mult_complex, Complex.mul_re, Complex.mul_im]

theorem div_complex_eq_div (x y : ℂ) : div_complex x y = x / y := by
  apply Complex.ext <;>
    simp [div_complex, Complex.div_re, Complex.div_im, Complex.normSq_apply,
      pow_two, div_add_div_same, sub_div, mul_comm]

/-! ## Soft shrinkage (`_shrink_single` via `torch.nn.Softshrink`) -/

/-- Scalar `torch.nn.Softshrink(thresh)`: `x - t` for `x > t`, `x + t` for
`x < -t`, else `0`. -/
def softshrink (thresh x : ℚ) : ℚ :=
  if x > thresh then x - thresh else if x < -thresh then x + thresh else 0

/-- Source `shrink = _shrink_single`: elementwise soft thresholding of a tensor. -/
def shrink {ι : Type} (x : ι → ℚ) (thresh : ℚ) : ι → ℚ :=
  fun i => softshrink thresh (x i)

/-- Exact sign of a rational number, as used in the spec's description of
shrinkage. -/
def signQ (x : ℚ) : ℚ := if 0 < x then 1 else if x < 0 then -1 else 0

/-! ## Euclidean projection onto a closed l2-ball (`proj_l2_ball`) -/

/-- The l2 norm of `x - centre` over the (flattened) last two dimensions, as
computed by `proj_l2_ball`. -/
noncomputable def l2BallNorm {ι : Type} [Fintype ι] (x centre : ι → ℝ) : ℝ :=
  Real.sqrt (∑ i, (x i - centre i) ^ 2)

/-- Source `proj_l2_ball` from the source: `fac = radius/norm` where `norm > radius`
and `1` elsewhere; result `fac * x + (1 - fac) * centre`. -/
noncomputable def proj_l2_ball {ι : Type} [Fintype ι]
    (x centre : ι → ℝ) (radius : ℝ) : ι → ℝ :=
  let fac : ℝ := if l2BallNorm x centre > radius then radius / l2BallNorm x centre else 1
  fun i => fac * x i + (1 - fac) * centre i

/-! ## Differentiable CG solver layer (`_CGInverterFunc` / `_CGInverter`) -/

namespace CGInverter

/-- A tensor parameter together with its `requires_grad` flag. -/
structure TParam (V : Type) where
  val : V
  requiresGrad : Bool

/-- Source `ctx.in_grads = [p is not None and p.requires_grad for p in params]`
for the parameter list `(B, X0)` (`B` is always a tensor, `X0` optional). -/
def inGrads {V : Type} (B : TParam V) (X0 : Option (TParam V)) : Bool × Bool :=
  (B.requiresGrad, match X0 with
    | some p => p.requiresGrad
    | none => false)

/-- Source `_CGInverter.forward`: runs `torch_cg.cg_batch` (abstracted as `cg`,
with the fixed `A_bmm`/`M_bmm`/tolerances baked in) on the right hand side
`B` and initial guess `X0`. -/
def forward {ι : Type} (cg : (ι → ℚ) → Option (ι → ℚ) → (ι → ℚ))
    (B : ι → ℚ) (X0 : Option (ι → ℚ)) : ι → ℚ :=
  cg B X0

/-- Source `_CGInverter.backward`: `dB` is the same CG solve applied to the
incoming gradient `dX` (with `X0 = None`), the `X0` gradient is `0.0 * dX`,
and each slot whose parameter did not require gradients is `None`. -/
def backward {ι : Type} (cg : (ι → ℚ) → Option (ι → ℚ) → (ι → ℚ))
    (ctxInGrads : Bool × Bool) (dX : ι → ℚ) :
    Option (ι → ℚ) × Option (ι → ℚ) :=
  let dB := cg dX none
  let gX0 := fun i => (0 : ℚ) * dX i
  (if ctxInGrads.1 then some dB else none,
   if ctxInGrads.2 then some gX0 else none)

end CGInverter

/-! ## Periodic TV analysis operator (`TVAnalysisPeriodic.dot` / `.adj`)

The operator is scalar-polymorphic (the code applies the same real
stencil to each channel; we instantiate `ℚ` for evaluation and `ℂ` for
the Fourier-kernel claim). -/

/-- Periodic image index set (row index mod `n1`, column index mod `n2`). -/
abbrev Freq (n1 n2 : ℕ) := ZMod n1 × ZMod n2

/-- Source `circshift(x, dim=-2, num)`: entry `i` of the result is entry
`(i + num) % n1` of the input. -/
def circshift_row {n1 n2 : ℕ} {α : Type} (x : Freq n1 n2 → α) (num : ℕ) :
    Freq n1 n2 → α :=
  fun p => x (p.1 + (num : ZMod n1), p.2)

/-- Source `circshift(x, dim=-1, num)`: entry `j` of the result is entry
`(j + num) % n2` of the input. -/
def circshift_col {n1 n2 : ℕ} {α : Type} (x : Freq n1 n2 → α) (num : ℕ) :
    Freq n1 n2 → α :=
  fun p => x (p.1, p.2 + (num : ZMod n2))

namespace TVAnalysisPeriodic

/-- Source `TVAnalysisPeriodic.dot`: concatenation (indexed by `Fin 2`) of the
flattened periodic row differences and column differences. -/
def dot {n1 n2 : ℕ} {α : Type} [CommRing α] (x : Freq n1 n2 → α) :
    Fin 2 × Freq n1 n2 → α :=
  fun c =>
    if c.1 = 0 then circshift_row x 1 c.2 - x c.2
    else circshift_col x 1 c.2 - x c.2

/-- Source `TVAnalysisPeriodic.adj`: as in the source, both halves are shifted by
`num = self.n[0] - 1` — including the column half (which uses `n[0]`, not
`n[1]`). -/
def adj {n1 n2 : ℕ} {α : Type} [CommRing α] (y : Fin 2 × Freq n1 n2 → α) :
    Freq n1 n2 → α :=
  let row_diff : Freq n1 n2 → α := fun p => y (0, p)
  let col_diff : Freq n1 n2 → α := fun p => y (1, p)
  fun p =>
    circshift_row row_diff (n1 - 1) p - row_diff p +
      circshift_col col_diff (n1 - 1) p - col_diff p

/-- Source `TVAnalysisPeriodic.inv`: unconditionally raises `NotImplementedError`;
the operator state is returned untouched. -/
def inv {σ Y X : Type} (op : σ) (y : Y) : Except String X × σ :=
  (Except.error "This operator does not implement a direct inversion.", op)

end TVAnalysisPeriodic

/-- Real inner product of two images (flattened); scalar-polymorphic so
that concrete evaluations can run over `ℤ`. -/
def innerGrid {n1 n2 : ℕ} [NeZero n1] [NeZero n2] {α : Type} [CommRing α]
    (x y : Freq n1 n2 → α) : α := ∑ p, x p * y p

/-- Real inner product of two TV measurement vectors (flattened
concatenation of the two difference images). -/
def innerTVMeas {n1 n2 : ℕ} [NeZero n1] [NeZero n2] {α : Type} [CommRing α]
    (x y : Fin 2 × Freq n1 n2 → α) : α := ∑ c, x c * y c

namespace Wavelet

/-- Source `Wavelet.inv`: unconditionally raises `NotImplementedError`; the
operator state is returned untouched. -/
def inv {σ Y X : Type} (op : σ) (y : Y) : Except String X × σ :=
  (Except.error "This operator does not implement a direct inversion.", op)

end Wavelet

/-! ## Discrete Fourier transforms (`torch.fft` / `fastmri_utils.transforms`)

`torch.fft(·, signal_ndim=2)` is the plain 2D DFT with kernel
`exp (-2πi (j1 k1 / n1 + j2 k2 / n2))`; with `normalized=True` it carries
a `1/√(n1 n2)` factor, and `torch.ifft(·, normalized=True)` is the
conjugate-kernel sum with the same factor. `transforms.fft2`/`ifft2`
sandwich these between `ifftshift` (roll by `(n+1) // 2`) and `fftshift`
(roll by `n // 2`) along the two image axes. -/

/-- Forward DFT kernel `exp (-2πi (j1 k1 / n1 + j2 k2 / n2))`. -/
noncomputable def fourierKer {n1 n2 : ℕ} [NeZero n1] [NeZero n2]
    (j k : Freq n1 n2) : ℂ :=
  ZMod.stdAddChar (-(j.1 * k.1)) * ZMod.stdAddChar (-(j.2 * k.2))

/-- Inverse DFT kernel `exp (2πi (j1 k1 / n1 + j2 k2 / n2))`. -/
noncomputable def fourierKerInv {n1 n2 : ℕ} [NeZero n1] [NeZero n2]
    (j k : Freq n1 n2) : ℂ :=
  ZMod.stdAddChar (j.1 * k.1) * ZMod.stdAddChar (j.2 * k.2)

/-- Source `torch.fft(x, signal_ndim=2)` (unnormalized 2D DFT). -/
noncomputable def torchFFT {n1 n2 : ℕ} [NeZero n1] [NeZero n2]
    (x : Freq n1 n2 → ℂ) : Freq n1 n2 → ℂ :=
  fun k => ∑ j, x j * fourierKer j k

/-- The conjugate-kernel sum underlying `torch.ifft` (which equals this
divided by `n1*n2`, or by `√(n1*n2)` when `normalized=True`). -/
noncomputable def torchIFFTsum {n1 n2 : ℕ} [NeZero n1] [NeZero n2]
    (y : Freq n1 n2 → ℂ) : Freq n1 n2 → ℂ :=
  fun j => ∑ k, y k * fourierKerInv j k

/-- Source `fftshift` along both image axes (`torch.roll` by `n // 2`). -/
def fftshift2 {n1 n2 : ℕ} {α : Type} (x : Freq n1 n2 → α) : Freq n1 n2 → α :=
  fun k => x (k.1 - ((n1 / 2 : ℕ) : ZMod n1), k.2 - ((n2 / 2 : ℕ) : ZMod n2))

/-- Source `ifftshift` along both image axes (`torch.roll` by `(n + 1) // 2`). -/
def ifftshift2 {n1 n2 : ℕ} {α : Type} (x : Freq n1 n2 → α) : Freq n1 n2 → α :=
  fun k => x (k.1 - (((n1 + 1) / 2 : ℕ) : ZMod n1), k.2 - (((n2 + 1) / 2 : ℕ) : ZMod n2))

/-- Source `transforms.fft2`: `fftshift(torch.fft(ifftshift(x), 2, normalized=True))`. -/
noncomputable def fft2 {n1 n2 : ℕ} [NeZero n1] [NeZero n2]
    (x : Freq n1 n2 → ℂ) : Freq n1 n2 → ℂ :=
  fftshift2 (fun k => torchFFT (ifftshift2 x) k / (Real.sqrt (n1 * n2) : ℂ))

/-- Source `transforms.ifft2`: `fftshift(torch.ifft(ifftshift(y), 2, normalized=True))`. -/
noncomputable def ifft2 {n1 n2 : ℕ} [NeZero n1] [NeZero n2]
    (y : Freq n1 n2 → ℂ) : Freq n1 n2 → ℂ :=
  fftshift2 (fun j => torchIFFTsum (ifftshift2 y) j / (Real.sqrt (n1 * n2) : ℂ))

/-! ## Subsampled Fourier operator (`Fourier`) -/

/-- A boolean frequency-sampling mask (`self.mask`). -/
abbrev MaskT (n1 n2 : ℕ) := Freq n1 n2 → Bool

/-- Source `to_complex` of a boolean mask: `1` on sampled frequencies, `0` off. -/
def maskC {n1 n2 : ℕ} (mask : MaskT n1 n2) : Freq n1 n2 → ℂ :=
  fun p => if mask p then 1 else 0

namespace Fourier

/-- Source `Fourier.dot`: full (shifted, normalized) 2D FFT followed by selection
of the sampled frequencies. -/
noncomputable def dot {n1 n2 : ℕ} [NeZero n1] [NeZero n2] (mask : MaskT n1 n2)
    (x : Freq n1 n2 → ℂ) : {p : Freq n1 n2 // mask p = true} → ℂ :=
  fun p => fft2 x p.1

/-- Zero-filled scattering of a measurement vector back onto the full
frequency grid (`masked_fft[..., im2vec(self.mask)] = y`). -/
noncomputable def scatter {n1 n2 : ℕ} (mask : MaskT n1 n2)
    (y : {p : Freq n1 n2 // mask p = true} → ℂ) : Freq n1 n2 → ℂ :=
  fun k => if h : mask k = true then y ⟨k, h⟩ else 0

/-- Source `Fourier.adj`: zero-filled inverse FFT. -/
noncomputable def adj {n1 n2 : ℕ} [NeZero n1] [NeZero n2] (mask : MaskT n1 n2)
    (y : {p : Freq n1 n2 // mask p = true} → ℂ) : Freq n1 n2 → ℂ :=
  ifft2 (scatter mask y)

/-- Source `Fourier.tikh`: frequency-space division of `fft2 rhs` by the combined
kernel `Mask + ρ·Kernel`, followed by `ifft2`. -/
noncomputable def tikh {n1 n2 : ℕ} [NeZero n1] [NeZero n2] (mask : MaskT n1 n2)
    (rhs kernel : Freq n1 n2 → ℂ) (rho : ℝ) : Freq n1 n2 → ℂ :=
  ifft2 (fun k => div_complex (fft2 rhs k) (maskC mask k + (rho : ℂ) * kernel k))

end Fourier

/-! ## TV Fourier-domain kernel (`TVAnalysisPeriodic.get_fourier_kernel`) -/

namespace TVAnalysisPeriodic

/-- The 5-point stencil tensor built inside `get_fourier_kernel`
(`kernel[0,0]=4`, `kernel[0,±1]=kernel[±1,0]=-1`, negative python indices
meaning `n-1`). -/
def stencil (n : ℕ) [NeZero n] : Freq n n → ℂ :=
  fun p =>
    if p = (0, 0) then 4
    else if p = (0, 1) then -1
    else if p = (1, 0) then -1
    else if p = (0, -1) then -1
    else if p = (-1, 0) then -1
    else 0

/-- Source `get_fourier_kernel`: unnormalized `torch.fft` of the stencil,
`fftshift`ed to the shifted-spectrum layout used by `Fourier.tikh`. -/
noncomputable def get_fourier_kernel (n : ℕ) [NeZero n] : Freq n n → ℂ :=
  fftshift2 (torchFFT (stencil n))

end TVAnalysisPeriodic

/-- The periodic 5-point combination `(2I - S_r - S_rᵀ) + (2I - S_c - S_cᵀ)`
— the pointwise value of `TVAnalysisPeriodic.adj ∘ TVAnalysisPeriodic.dot`
on a square domain. -/
def tvFivePoint {n : ℕ} (v : Freq n n → ℂ) : Freq n n → ℂ :=
  fun p => 4 * v p - v (p.1 - 1, p.2) - v (p.1 + 1, p.2) -
    v (p.1, p.2 - 1) - v (p.1, p.2 + 1)

/-! ## Haar wavelet transform (`pywt.wavedec2` / `pywt.waverec2`,
`wavelet="haar"`, `mode="zero"`)

The operator is constructed with a fixed decomposition `level`; the
admissible image sides are `2^level * a`, tracked by `wdim`. The source's
`coeffs_to_array`/`array_to_coeffs` packing (applied symmetrically with
the cached `self.slices` in `dot` and `adj`) is a layout bijection and is
modelled as the identity packaging of the coefficient tree. -/

/-- Image side length admitting `L` decomposition levels: `2^L * a`. -/
def wdim : ℕ → ℕ → ℕ
  | 0, a => a
  | L + 1, a => 2 * wdim L a

/-- A real image of size `a × b`. -/
abbrev GridR (a b : ℕ) := Fin a → Fin b → ℝ

/-- Single-level 1D Haar analysis, lowpass (`(x₂ₖ + x₂ₖ₊₁)/√2`). -/
noncomputable def haarLo {m : ℕ} (x : Fin (2 * m) → ℝ) (k : Fin m) : ℝ :=
  (x ⟨2 * k.1, by have := k.2; omega⟩ + x ⟨2 * k.1 + 1, by have := k.2; omega⟩) /
    Real.sqrt 2

/-- Single-level 1D Haar analysis, highpass (`(x₂ₖ - x₂ₖ₊₁)/√2`). -/
noncomputable def haarHi {m : ℕ} (x : Fin (2 * m) → ℝ) (k : Fin m) : ℝ :=
  (x ⟨2 * k.1, by have := k.2; omega⟩ - x ⟨2 * k.1 + 1, by have := k.2; omega⟩) /
    Real.sqrt 2

/-- Single-level 1D Haar synthesis (inverse of `haarLo`/`haarHi`). -/
noncomputable def haarSyn {m : ℕ} (lo hi : Fin m → ℝ) (i : Fin (2 * m)) : ℝ :=
  if i.1 % 2 = 0 then
    (lo ⟨i.1 / 2, by have := i.2; omega⟩ + hi ⟨i.1 / 2, by have := i.2; omega⟩) /
      Real.sqrt 2
  else
    (lo ⟨i.1 / 2, by have := i.2; omega⟩ - hi ⟨i.1 / 2, by have := i.2; omega⟩) /
      Real.sqrt 2

/-- One-dimensional analysis along the first image axis. -/
noncomputable def H1lo {a b : ℕ} (x : GridR (2 * a) b) : GridR a b :=
  fun i j => haarLo (fun u => x u j) i

/-- One-dimensional highpass analysis along the first image axis. -/
noncomputable def H1hi {a b : ℕ} (x : GridR (2 * a) b) : GridR a b :=
  fun i j => haarHi (fun u => x u j) i

/-- One-dimensional analysis along the second image axis. -/
noncomputable def H2lo {a b : ℕ} (x : GridR a (2 * b)) : GridR a b :=
  fun i => haarLo (x i)

/-- One-dimensional highpass analysis along the second image axis. -/
noncomputable def H2hi {a b : ℕ} (x : GridR a (2 * b)) : GridR a b :=
  fun i => haarHi (x i)

/-- One-dimensional synthesis along the first image axis. -/
noncomputable def S1 {a b : ℕ} (lo hi : GridR a b) : GridR (2 * a) b :=
  fun u j => haarSyn (fun i => lo i j) (fun i => hi i j) u

/-- One-dimensional synthesis along the second image axis. -/
noncomputable def S2 {a b : ℕ} (lo hi : GridR a b) : GridR a (2 * b) :=
  fun i => haarSyn (lo i) (hi i)

/-- Source `pywt.dwt2` subbands: approximation and the three details. -/
noncomputable def dwtLL {a b : ℕ} (x : GridR (2 * a) (2 * b)) : GridR a b :=
  H1lo (H2lo x)

noncomputable def dwtLH {a b : ℕ} (x : GridR (2 * a) (2 * b)) : GridR a b :=
  H1lo (H2hi x)

noncomputable def dwtHL {a b : ℕ} (x : GridR (2 * a) (2 * b)) : GridR a b :=
  H1hi (H2lo x)

noncomputable def dwtHH {a b : ℕ} (x : GridR (2 * a) (2 * b)) : GridR a b :=
  H1hi (H2hi x)

/-- Source `pywt.idwt2`: single-level 2D synthesis from the four subbands. -/
noncomputable def idwt2 {a b : ℕ} (ll lh hl hh : GridR a b) :
    GridR (2 * a) (2 * b) :=
  S2 (S1 ll hl) (S1 lh hh)

/-- Multi-level 2D wavelet coefficient tree (`pywt.wavedec2` output): the
level-`L` approximation plus three detail images per level. -/
def WaveCoeffs (a b : ℕ) : ℕ → Type
  | 0 => GridR a b
  | L + 1 =>
    WaveCoeffs a b L × (GridR (wdim L a) (wdim L b) × GridR (wdim L a) (wdim L b) ×
      GridR (wdim L a) (wdim L b))

/-- Source `pywt.wavedec2(x, "haar", mode="zero", level=L)`. -/
noncomputable def wavedec2 (a b : ℕ) : (L : ℕ) → GridR (wdim L a) (wdim L b) →
    WaveCoeffs a b L
  | 0, x => x
  | L + 1, x => (wavedec2 a b L (dwtLL x), (dwtLH x, dwtHL x, dwtHH x))

/-- Source `pywt.waverec2(c, "haar", mode="zero")`. -/
noncomputable def waverec2 (a b : ℕ) : (L : ℕ) → WaveCoeffs a b L →
    GridR (wdim L a) (wdim L b)
  | 0, c => c
  | L + 1, c => idwt2 (waverec2 a b L c.1) c.2.1 c.2.2.1 c.2.2.2

namespace Wavelet

/-- Source `Wavelet.dot`: the level-`level` Haar decomposition (the
`coeffs_to_array` flattening is the identity packaging of the tree). -/
noncomputable def dot (a b level : ℕ) (x : GridR (wdim level a) (wdim level b)) :
    WaveCoeffs a b level :=
  wavedec2 a b level x

/-- Source `Wavelet.adj`: inverse wavelet synthesis of a coefficient vector. -/
noncomputable def adj (a b level : ℕ) (y : WaveCoeffs a b level) :
    GridR (wdim level a) (wdim level b) :=
  waverec2 a b level y

/-- Channelwise application to a complex (2-channel) image. -/
noncomputable def dotC (a b level : ℕ)
    (x : GridR (wdim level a) (wdim level b) × GridR (wdim level a) (wdim level b)) :
    WaveCoeffs a b level × WaveCoeffs a b level :=
  (dot a b level x.1, dot a b level x.2)

/-- Channelwise synthesis for a complex (2-channel) image. -/
noncomputable def adjC (a b level : ℕ)
    (y : WaveCoeffs a b level × WaveCoeffs a b level) :
    GridR (wdim level a) (wdim level b) × GridR (wdim level a) (wdim level b) :=
  (adj a b level y.1, adj a b level y.2)

end Wavelet

/-! # Theorems -/

/-- Scalar form of the C8 identity: `softshrink t x = sign x * max (|x| - t) 0`
for `t ≥ 0`. -/
theorem softshrink_eq_sign_mul_max (t x : ℚ) (ht : 0 ≤ t) :
    softshrink t x = signQ x * max (|x| - t) 0 := by
  unfold softshrink signQ
  rcases lt_trichotomy x 0 with h | h | h
  · have e1 : ¬ x > t := by linarith
    have e2 : ¬ 0 < x := by linarith
    rw [if_neg e1, if_neg e2, if_pos h, abs_of_neg h]
    rcases le_or_lt (-t) x with h2 | h2
    · rw [if_neg (not_lt.mpr h2), max_eq_right (by linarith)]; ring
    · rw [if_pos h2, max_eq_left (by linarith)]; ring
  · subst h
    rw [if_neg (by linarith : ¬ (0 : ℚ) > t), if_neg (by linarith : ¬ (0 : ℚ) < -t),
      if_neg (lt_irrefl (0 : ℚ))]
    rw [if_neg (lt_irrefl (0 : ℚ))]
    ring
  · have e2 : ¬ x < -t := by linarith
    rw [if_pos h, abs_of_pos h]
    rcases le_or_lt x t with h2 | h2
    · rw [if_neg (not_lt.mpr h2), if_neg e2, max_eq_right (by linarith)]; ring
    · rw [if_pos h2, max_eq_left (by linarith)]; ring

/-- Claim C8. `shrink(v, 0) = v`, and for `t > 0` the result is elementwise
`sign(v) * max (|v| - t) 0`. -/
theorem shrink_soft_threshold {ι : Type} (v : ι → ℚ) :
    shrink v 0 = v ∧
      ∀ t : ℚ, 0 < t → ∀ i, shrink v t i = signQ (v i) * max (|v i| - t) 0 := by
  constructor
  · funext i
    simp only [shrink, softshrink]
    rcases lt_trichotomy (v i) 0 with h | h | h
    · rw [if_neg (by linarith : ¬ v i > 0), if_pos (by simpa using h)]; ring
    · simp [h]
    · rw [if_pos h]; ring
  · intro t ht i
    exact softshrink_eq_sign_mul_max t (v i) ht.le

/-- Witness for C8 at a concrete vector and threshold. -/
theorem shrink_soft_threshold_witness :
    shrink (fun i : Fin 3 => if i = 0 then (5 : ℚ) else if i = 1 then -2 else 0) 0 =
        (fun i : Fin 3 => if i = 0 then (5 : ℚ) else if i = 1 then -2 else 0) ∧
      (0 : ℚ) < 1 ∧
      shrink (fun i : Fin 3 => if i = 0 then (5 : ℚ) else if i = 1 then -2 else 0) 1 ⟨1, by decide⟩ =
        signQ (-2) * max (|(-2 : ℚ)| - 1) 0 := by
  refine ⟨(shrink_soft_threshold _).1, by decide, ?_⟩
  have h := (shrink_soft_threshold
    (fun i : Fin 3 => if i = 0 then (5 : ℚ) else if i = 1 then -2 else 0)).2
    1 (by decide) ⟨1, by decide⟩
  simpa using h

/-- Claim C2. The CG layer's backward pass: the gradient for `B` is the same
CG solve applied to `dX` as a new right hand side (hence `A⁻¹ dX` when the
solve is exact for the self-adjoint system operator `A`), the gradient for
`X0` is the zero tensor, and every parameter not requiring gradients
(including `X0 = None`) gets gradient `None`. -/
theorem cg_backward_correct {ι : Type}
    (A : (ι → ℚ) → (ι → ℚ)) (cg : (ι → ℚ) → Option (ι → ℚ) → (ι → ℚ))
    (B : CGInverter.TParam (ι → ℚ)) (X0 : Option (CGInverter.TParam (ι → ℚ)))
    (dX : ι → ℚ) (hA : A (cg dX none) = dX) :
    (B.requiresGrad = true →
        (CGInverter.backward cg (CGInverter.inGrads B X0) dX).1 = some (cg dX none) ∧
          A (cg dX none) = dX) ∧
      (B.requiresGrad = false →
        (CGInverter.backward cg (CGInverter.inGrads B X0) dX).1 = none) ∧
      (∀ p, X0 = some p → p.requiresGrad = true →
        (CGInverter.backward cg (CGInverter.inGrads B X0) dX).2 = some (fun _ => 0)) ∧
      (X0 = none → (CGInverter.backward cg (CGInverter.inGrads B X0) dX).2 = none) ∧
      (∀ p, X0 = some p → p.requiresGrad = false →
        (CGInverter.backward cg (CGInverter.inGrads B X0) dX).2 = none) := by
  refine ⟨fun hB => ⟨?_, hA⟩, fun hB => ?_, fun p hp hr => ?_, fun hp => ?_,
    fun p hp hr => ?_⟩
  · simp [CGInverter.backward, CGInverter.inGrads, hB]
  · simp [CGInverter.backward, CGInverter.inGrads, hB]
  · subst hp
    simp [CGInverter.backward, CGInverter.inGrads, hr]
  · subst hp
    simp [CGInverter.backward, CGInverter.inGrads]
  · subst hp
    simp [CGInverter.backward, CGInverter.inGrads, hr]

/-- A trivial exact CG solver (for the identity system) used by the C2
witness. -/
def cgIdSolve : (Fin 1 → ℚ) → Option (Fin 1 → ℚ) → (Fin 1 → ℚ) := fun v _ => v

/-- Witness for C2: identity system on `Fin 1`, `B` requiring gradients,
`X0 = None`. -/
theorem cg_backward_correct_witness :
    (id (cgIdSolve (fun _ => 2) none) = (fun _ => 2 : Fin 1 → ℚ)) ∧
      ((CGInverter.backward cgIdSolve
          (CGInverter.inGrads ⟨(fun _ => 3 : Fin 1 → ℚ), true⟩ none) (fun _ => 2)).1 =
        some (cgIdSolve (fun _ => 2) none)) ∧
      (CGInverter.backward cgIdSolve
          (CGInverter.inGrads ⟨(fun _ => 3 : Fin 1 → ℚ), true⟩ none) (fun _ => 2)).2 = none := by
  have h := cg_backward_correct (ι := Fin 1) id cgIdSolve
    ⟨(fun _ => 3), true⟩ none (fun _ => 2) rfl
  exact ⟨rfl, (h.1 rfl).1, h.2.2.2.1 rfl⟩

/-- Claim C9. `inv` on the TV analysis operator and on the wavelet operator
signals `NotImplementedError` (it produces no reconstruction) and returns
the operator state unchanged. -/
theorem inv_not_implemented {σ Y X : Type} (op : σ) (y : Y) :
    (TVAnalysisPeriodic.inv (X := X) op y).1 =
        Except.error "This operator does not implement a direct inversion." ∧
      (TVAnalysisPeriodic.inv (X := X) op y).2 = op ∧
      (∀ x : X, (TVAnalysisPeriodic.inv (X := X) op y).1 ≠ Except.ok x) ∧
      (Wavelet.inv (X := X) op y).1 =
        Except.error "This operator does not implement a direct inversion." ∧
      (Wavelet.inv (X := X) op y).2 = op ∧
      (∀ x : X, (Wavelet.inv (X := X) op y).1 ≠ Except.ok x) := by
  exact ⟨rfl, rfl, fun x h => by simp [TVAnalysisPeriodic.inv] at h, rfl, rfl,
    fun x h => by simp [Wavelet.inv] at h⟩

/-- Claim C1. Adjointness fails on the code: for the TV analysis operator on
the non-square domain `n = (2, 3)` (admitted by its constructor), with
`x` the indicator of pixel `(0,1)` and `y` the indicator of the column
half entry `(0,0)` (integer-valued inputs, evaluated exactly), the two
inner products `⟨dot x, y⟩` and `⟨x, adj y⟩` differ (`1` versus `0`):
`adj` shifts the column half by `n[0] - 1` instead of `n[1] - 1`. -/
theorem tv_adjointness_fails_nonsquare :
    innerTVMeas
        (TVAnalysisPeriodic.dot
          (fun p : Freq 2 3 => if p = (0, 1) then (1 : ℤ) else 0))
        (fun c => if c = (1, ((0 : ZMod 2), (0 : ZMod 3))) then 1 else 0) = 1 ∧
      innerGrid (fun p : Freq 2 3 => if p = (0, 1) then (1 : ℤ) else 0)
        (TVAnalysisPeriodic.adj
          (fun c => if c = (1, ((0 : ZMod 2), (0 : ZMod 3))) then 1 else 0)) = 0 := by
  constructor <;> decide

/-! ## DFT lemmas: character sums, orthogonality, inversion -/

/-- Character-sum orthogonality on `ZMod n`: `∑ k, e(c k) = n·[c = 0]`. -/
theorem stdAddChar_mul_sum (n : ℕ) [NeZero n] (c : ZMod n) :
    ∑ k : ZMod n, ZMod.stdAddChar (c * k) = if c = 0 then (n : ℂ) else 0 := by
  split_ifs with h
  · subst h
    simp [AddChar.map_zero_eq_one, ZMod.card]
  · have h1 := AddChar.sum_eq_zero_of_ne_one (ZMod.isPrimitive_stdAddChar n h)
    simpa [AddChar.mulShift_apply] using h1

theorem fourierKer_add_left {n1 n2 : ℕ} [NeZero n1] [NeZero n2]
    (a b k : Freq n1 n2) :
    fourierKer (a + b) k = fourierKer a k * fourierKer b k := by
  unfold fourierKer
  rw [Prod.fst_add, Prod.snd_add,
    show -((a.1 + b.1) * k.1) = -(a.1 * k.1) + -(b.1 * k.1) by ring,
    show -((a.2 + b.2) * k.2) = -(a.2 * k.2) + -(b.2 * k.2) by ring,
    AddChar.map_add_eq_mul, AddChar.map_add_eq_mul]
  ring

theorem fourierKer_zero_left {n1 n2 : ℕ} [NeZero n1] [NeZero n2]
    (k : Freq n1 n2) : fourierKer 0 k = 1 := by
  unfold fourierKer
  simp [AddChar.map_zero_eq_one]

theorem fourierKer_comm {n1 n2 : ℕ} [NeZero n1] [NeZero n2]
    (j k : Freq n1 n2) : fourierKer j k = fourierKer k j := by
  unfold fourierKer
  rw [mul_comm j.1 k.1, mul_comm j.2 k.2]

theorem fourierKerInv_comm {n1 n2 : ℕ} [NeZero n1] [NeZero n2]
    (j k : Freq n1 n2) : fourierKerInv j k = fourierKerInv k j := by
  unfold fourierKerInv
  rw [mul_comm j.1 k.1, mul_comm j.2 k.2]

theorem fourierKer_mul_inv {n1 n2 : ℕ} [NeZero n1] [NeZero n2]
    (i j k : Freq n1 n2) :
    fourierKer i k * fourierKerInv j k =
      ZMod.stdAddChar ((j.1 - i.1) * k.1) * ZMod.stdAddChar ((j.2 - i.2) * k.2) := by
  unfold fourierKer fourierKerInv
  rw [mul_mul_mul_comm, ← AddChar.map_add_eq_mul, ← AddChar.map_add_eq_mul,
    show -(i.1 * k.1) + j.1 * k.1 = (j.1 - i.1) * k.1 by ring,
    show -(i.2 * k.2) + j.2 * k.2 = (j.2 - i.2) * k.2 by ring]

/-- Two-dimensional orthogonality: the forward and inverse kernels are biorthogonal with
constant `n1·n2`. -/
theorem fourier_orthogonality {n1 n2 : ℕ} [NeZero n1] [NeZero n2]
    (i j : Freq n1 n2) :
    ∑ k : Freq n1 n2, fourierKer i k * fourierKerInv j k =
      if i = j then ((n1 * n2 : ℕ) : ℂ) else 0 := by
  rw [Finset.sum_congr rfl fun k _ => fourierKer_mul_inv i j k,
    Fintype.sum_prod_type]
  dsimp only
  rw [← Finset.sum_mul_sum, stdAddChar_mul_sum, stdAddChar_mul_sum]
  by_cases h : i = j
  · subst h
    simp only [sub_self, if_pos rfl]
    push_cast
    ring
  · have h1 : ¬(j.1 - i.1 = 0 ∧ j.2 - i.2 = 0) := by
      intro hc
      exact h (Prod.ext (sub_eq_zero.mp hc.1).symm (sub_eq_zero.mp hc.2).symm)
    rw [if_neg h]
    by_cases ha : j.1 - i.1 = 0
    · rw [if_neg (fun hb => h1 ⟨ha, hb⟩), mul_zero]
    · rw [if_neg ha, zero_mul]

/-- The two fastmri shift amounts cancel: `n/2 + (n+1)/2 = n ≡ 0`. -/
theorem natCast_half_add (n : ℕ) :
    ((n / 2 : ℕ) : ZMod n) + (((n + 1) / 2 : ℕ) : ZMod n) = 0 := by
  rw [← Nat.cast_add, show n / 2 + (n + 1) / 2 = n by omega, ZMod.natCast_self]

theorem sub_shift_cancel_f {n : ℕ} (a : ZMod n) :
    a - ((n / 2 : ℕ) : ZMod n) - (((n + 1) / 2 : ℕ) : ZMod n) = a := by
  rw [sub_sub, natCast_half_add, sub_zero]

theorem sub_shift_cancel_i {n : ℕ} (a : ZMod n) :
    a - (((n + 1) / 2 : ℕ) : ZMod n) - ((n / 2 : ℕ) : ZMod n) = a := by
  rw [sub_sub, add_comm, natCast_half_add, sub_zero]

theorem ifftshift2_fftshift2 {n1 n2 : ℕ} {α : Type} (x : Freq n1 n2 → α) :
    ifftshift2 (fftshift2 x) = x := by
  funext k
  show x (k.1 - _ - _, k.2 - _ - _) = x k
  rw [sub_shift_cancel_i, sub_shift_cancel_i]

theorem fftshift2_ifftshift2 {n1 n2 : ℕ} {α : Type} (x : Freq n1 n2 → α) :
    fftshift2 (ifftshift2 x) = x := by
  funext k
  show x (k.1 - _ - _, k.2 - _ - _) = x k
  rw [sub_shift_cancel_f, sub_shift_cancel_f]

theorem torchIFFTsum_div {n1 n2 : ℕ} [NeZero n1] [NeZero n2]
    (F : Freq n1 n2 → ℂ) (c : ℂ) :
    torchIFFTsum (fun k => F k / c) = fun j => torchIFFTsum F j / c := by
  funext j
  unfold torchIFFTsum
  simp only [div_mul_eq_mul_div, ← Finset.sum_div]

theorem torchFFT_div {n1 n2 : ℕ} [NeZero n1] [NeZero n2]
    (F : Freq n1 n2 → ℂ) (c : ℂ) :
    torchFFT (fun k => F k / c) = fun j => torchFFT F j / c := by
  funext j
  unfold torchFFT
  simp only [div_mul_eq_mul_div, ← Finset.sum_div]

/-- Fourier inversion (unnormalized): `ifft_sum (fft x) = (n1·n2) • x`. -/
theorem torchIFFTsum_torchFFT {n1 n2 : ℕ} [NeZero n1] [NeZero n2]
    (x : Freq n1 n2 → ℂ) :
    torchIFFTsum (torchFFT x) = fun j => ((n1 * n2 : ℕ) : ℂ) * x j := by
  funext j
  unfold torchIFFTsum torchFFT
  simp only [Finset.sum_mul]
  rw [Finset.sum_comm]
  have h1 : ∀ i : Freq n1 n2,
      ∑ k : Freq n1 n2, x i * fourierKer i k * fourierKerInv j k =
        x i * (if i = j then ((n1 * n2 : ℕ) : ℂ) else 0) := by
    intro i
    simp only [mul_assoc, ← Finset.mul_sum]
    rw [fourier_orthogonality]
  rw [Finset.sum_congr rfl fun i _ => h1 i]
  simp only [mul_ite, mul_zero]
  rw [Finset.sum_ite_eq' Finset.univ j (fun i => x i * ((n1 * n2 : ℕ) : ℂ))]
  simp [mul_comm]

/-- Fourier inversion, other composition order. -/
theorem torchFFT_torchIFFTsum {n1 n2 : ℕ} [NeZero n1] [NeZero n2]
    (y : Freq n1 n2 → ℂ) :
    torchFFT (torchIFFTsum y) = fun k => ((n1 * n2 : ℕ) : ℂ) * y k := by
  funext k
  unfold torchFFT torchIFFTsum
  simp only [Finset.sum_mul]
  rw [Finset.sum_comm]
  have h1 : ∀ m : Freq n1 n2,
      ∑ j : Freq n1 n2, y m * fourierKerInv j m * fourierKer j k =
        y m * (if k = m then ((n1 * n2 : ℕ) : ℂ) else 0) := by
    intro m
    simp only [mul_assoc, ← Finset.mul_sum]
    congr 1
    rw [Finset.sum_congr rfl fun j _ => by
      rw [fourierKerInv_comm j m, fourierKer_comm j k, mul_comm]]
    exact fourier_orthogonality k m
  rw [Finset.sum_congr rfl fun m _ => h1 m]
  simp only [mul_ite, mul_zero]
  rw [Finset.sum_ite_eq Finset.univ k (fun m => y m * ((n1 * n2 : ℕ) : ℂ))]
  simp [mul_comm]

theorem sqrt_cast_mul_self {n1 n2 : ℕ} :
    (Real.sqrt (n1 * n2) : ℂ) * (Real.sqrt (n1 * n2) : ℂ) = ((n1 * n2 : ℕ) : ℂ) := by
  rw [← Complex.ofReal_mul, Real.mul_self_sqrt (by positivity)]
  push_cast
  ring

theorem natCast_prod_ne_zero {n1 n2 : ℕ} [NeZero n1] [NeZero n2] :
    ((n1 * n2 : ℕ) : ℂ) ≠ 0 :=
  Nat.cast_ne_zero.mpr (Nat.mul_ne_zero (NeZero.ne n1) (NeZero.ne n2))

/-- Source `transforms.ifft2` inverts `transforms.fft2`. -/
theorem ifft2_fft2 {n1 n2 : ℕ} [NeZero n1] [NeZero n2] (x : Freq n1 n2 → ℂ) :
    ifft2 (fft2 x) = x := by
  have h1 : ifftshift2 (fftshift2
      (fun k => torchFFT (ifftshift2 x) k / (Real.sqrt (n1 * n2) : ℂ))) =
      fun k => torchFFT (ifftshift2 x) k / (Real.sqrt (n1 * n2) : ℂ) :=
    ifftshift2_fftshift2 _
  calc ifft2 (fft2 x)
      = fftshift2 (fun j =>
          torchIFFTsum (fun k => torchFFT (ifftshift2 x) k / (Real.sqrt (n1 * n2) : ℂ)) j /
            (Real.sqrt (n1 * n2) : ℂ)) := by
        unfold ifft2 fft2
        rw [h1]
    _ = fftshift2 (fun j =>
          ((n1 * n2 : ℕ) : ℂ) * (ifftshift2 x) j / (Real.sqrt (n1 * n2) : ℂ) /
            (Real.sqrt (n1 * n2) : ℂ)) := by
        rw [torchIFFTsum_div, torchIFFTsum_torchFFT]
    _ = fftshift2 (ifftshift2 x) := by
        funext p
        show ((n1 * n2 : ℕ) : ℂ) * _ / _ / _ = _
        rw [div_div, sqrt_cast_mul_self, mul_comm, mul_div_assoc,
          div_self natCast_prod_ne_zero, mul_one]
        rfl
    _ = x := fftshift2_ifftshift2 x

/-- Source `transforms.fft2` inverts `transforms.ifft2`. -/
theorem fft2_ifft2 {n1 n2 : ℕ} [NeZero n1] [NeZero n2] (y : Freq n1 n2 → ℂ) :
    fft2 (ifft2 y) = y := by
  have h1 : ifftshift2 (fftshift2
      (fun j => torchIFFTsum (ifftshift2 y) j / (Real.sqrt (n1 * n2) : ℂ))) =
      fun j => torchIFFTsum (ifftshift2 y) j / (Real.sqrt (n1 * n2) : ℂ) :=
    ifftshift2_fftshift2 _
  calc fft2 (ifft2 y)
      = fftshift2 (fun k =>
          torchFFT (fun j => torchIFFTsum (ifftshift2 y) j / (Real.sqrt (n1 * n2) : ℂ)) k /
            (Real.sqrt (n1 * n2) : ℂ)) := by
        unfold ifft2 fft2
        rw [h1]
    _ = fftshift2 (fun k =>
          ((n1 * n2 : ℕ) : ℂ) * (ifftshift2 y) k / (Real.sqrt (n1 * n2) : ℂ) /
            (Real.sqrt (n1 * n2) : ℂ)) := by
        rw [torchFFT_div, torchFFT_torchIFFTsum]
    _ = fftshift2 (ifftshift2 y) := by
        funext p
        show ((n1 * n2 : ℕ) : ℂ) * _ / _ / _ = _
        rw [div_div, sqrt_cast_mul_self, mul_comm, mul_div_assoc,
          div_self natCast_prod_ne_zero, mul_one]
        rfl
    _ = y := fftshift2_ifftshift2 y

/-- Claim C3. Fourier operator round trips: with a fully sampled mask,
`adj (dot x) = x` for every complex image `x`; and for every mask,
`dot (adj (dot x)) = dot x` (`dot ∘ adj` is the identity on the measured
subspace). -/
theorem fourier_roundtrip {n1 n2 : ℕ} [NeZero n1] [NeZero n2]
    (mask : MaskT n1 n2) (x : Freq n1 n2 → ℂ) :
    ((∀ p, mask p = true) → Fourier.adj mask (Fourier.dot mask x) = x) ∧
      Fourier.dot mask (Fourier.adj mask (Fourier.dot mask x)) =
        Fourier.dot mask x := by
  constructor
  · intro hfull
    unfold Fourier.adj Fourier.dot Fourier.scatter
    have h1 : (fun k => if h : mask k = true then fft2 x k else 0) = fft2 x := by
      funext k
      rw [dif_pos (hfull k)]
    rw [h1, ifft2_fft2]
  · unfold Fourier.dot Fourier.adj
    funext p
    rw [fft2_ifft2]
    exact dif_pos p.2

/-- Witness for C3: `n1 = n2 = 1`, full mask, constant image. -/
theorem fourier_roundtrip_witness :
    (∀ p : Freq 1 1, (fun _ : Freq 1 1 => true) p = true) ∧
      Fourier.adj (fun _ : Freq 1 1 => true)
          (Fourier.dot (fun _ => true) (fun _ => (2 : ℂ))) =
        (fun _ => (2 : ℂ)) :=
  ⟨fun _ => rfl, (fourier_roundtrip (fun _ => true) (fun _ => (2 : ℂ))).1 fun _ => rfl⟩

/-- On a `1 × 1` domain, `fft2` is evaluation at the single pixel. -/
theorem fft2_apply_oneone (x : Freq 1 1 → ℂ) (k : Freq 1 1) :
    fft2 x k = x (0, 0) := by
  have hchar : ∀ a : ZMod 1, ZMod.stdAddChar a = 1 := fun a => by
    rw [Subsingleton.elim a 0]
    exact AddChar.map_zero_eq_one _
  have hx : ∀ p : Freq 1 1, x p = x (0, 0) := fun p =>
    congrArg x (Subsingleton.elim _ _)
  haveI : Unique (Freq 1 1) :=
    ⟨⟨(0, 0)⟩, fun a => Prod.ext (Subsingleton.elim _ _) (Subsingleton.elim _ _)⟩
  unfold fft2 fftshift2 ifftshift2 torchFFT fourierKer
  dsimp only
  rw [Fintype.sum_unique]
  simp [hchar, hx]

/-- Claim C4, amended. At every frequency `k` where the combined kernel
`Mask + ρ·Kernel` does not vanish, the output `X` of `Fourier.tikh`
satisfies `(Mask + ρ·Kernel)·FFT(X) = FFT(rhs)` elementwise. -/
theorem fourier_tikh_freq_equation {n1 n2 : ℕ} [NeZero n1] [NeZero n2]
    (mask : MaskT n1 n2) (rhs kernel : Freq n1 n2 → ℂ) (rho : ℝ)
    (k : Freq n1 n2) (hk : maskC mask k + (rho : ℂ) * kernel k ≠ 0) :
    (maskC mask k + (rho : ℂ) * kernel k) *
        fft2 (Fourier.tikh mask rhs kernel rho) k = fft2 rhs k := by
  unfold Fourier.tikh
  rw [fft2_ifft2, div_complex_eq_div, mul_comm, div_mul_cancel₀ _ hk]

/-- Witness for C4: `1 × 1` domain, full mask, zero regularizer. -/
theorem fourier_tikh_freq_equation_witness :
    (maskC (fun _ : Freq 1 1 => true) (0, 0) +
        ((0 : ℝ) : ℂ) * (fun _ : Freq 1 1 => (0 : ℂ)) (0, 0) ≠ 0) ∧
      (maskC (fun _ : Freq 1 1 => true) (0, 0) +
          ((0 : ℝ) : ℂ) * (fun _ : Freq 1 1 => (0 : ℂ)) (0, 0)) *
          fft2 (Fourier.tikh (fun _ : Freq 1 1 => true) (fun _ => 3) (fun _ => 0) 0) (0, 0) =
        fft2 (fun _ : Freq 1 1 => (3 : ℂ)) (0, 0) := by
  constructor
  · simp [maskC]
  · exact fourier_tikh_freq_equation (fun _ : Freq 1 1 => true) (fun _ => 3)
      (fun _ => 0) 0 (0, 0) (by simp [maskC])

/-- Claim C4, counterexample. With an empty mask, zero kernel and `ρ = 0`,
the combined kernel vanishes, and the returned `X` does *not* satisfy
`(Mask + ρ·Kernel)·FFT(X) = FFT(rhs)` for `rhs ≡ 1` on the `1 × 1`
domain: the left side is `0` while `FFT(rhs) = 1`. -/
theorem fourier_tikh_counterexample :
    ¬ (maskC (fun _ : Freq 1 1 => false) (0, 0) +
          ((0 : ℝ) : ℂ) * (fun _ : Freq 1 1 => (0 : ℂ)) (0, 0)) *
          fft2 (Fourier.tikh (fun _ : Freq 1 1 => false) (fun _ => 1) (fun _ => 0) 0) (0, 0) =
        fft2 (fun _ : Freq 1 1 => (1 : ℂ)) (0, 0) := by
  intro h
  rw [fft2_apply_oneone, fft2_apply_oneone] at h
  simp [maskC] at h

/-- Claim C10. `proj_l2_ball` is the Euclidean projection onto the closed
l2-ball: inputs already in the ball are returned unchanged; outside
inputs map to `centre + radius·(x − centre)/‖x − centre‖`, at distance
exactly `radius`; and the result always lies in the closed ball. -/
theorem proj_l2_ball_correct {ι : Type} [Fintype ι] (x c : ι → ℝ) (r : ℝ)
    (hr : 0 ≤ r) :
    (l2BallNorm x c ≤ r → proj_l2_ball x c r = x) ∧
      (r < l2BallNorm x c →
        proj_l2_ball x c r = (fun i => c i + r * (x i - c i) / l2BallNorm x c) ∧
          l2BallNorm (proj_l2_ball x c r) c = r) ∧
      l2BallNorm (proj_l2_ball x c r) c ≤ r := by
  have hN0 : 0 ≤ l2BallNorm x c := Real.sqrt_nonneg _
  have hin : ∀ h : l2BallNorm x c ≤ r, proj_l2_ball x c r = x := by
    intro h
    funext i
    simp only [proj_l2_ball]
    rw [if_neg (not_lt.mpr h)]
    ring
  have hout : ∀ h : r < l2BallNorm x c,
      proj_l2_ball x c r = fun i => c i + r * (x i - c i) / l2BallNorm x c := by
    intro h
    have hNne : l2BallNorm x c ≠ 0 := by linarith
    funext i
    simp only [proj_l2_ball]
    rw [if_pos h]
    field_simp
    ring
  have houtdist : ∀ h : r < l2BallNorm x c,
      l2BallNorm (proj_l2_ball x c r) c = r := by
    intro h
    have hNpos : 0 < l2BallNorm x c := lt_of_le_of_lt hr h
    have hNne : l2BallNorm x c ≠ 0 := ne_of_gt hNpos
    have hfrac : 0 ≤ r / l2BallNorm x c := div_nonneg hr hN0
    have h1 : ∀ i, proj_l2_ball x c r i - c i =
        (r / l2BallNorm x c) * (x i - c i) := by
      intro i
      rw [hout h]
      field_simp
      ring
    unfold l2BallNorm
    calc Real.sqrt (∑ i, (proj_l2_ball x c r i - c i) ^ 2)
        = Real.sqrt ((r / l2BallNorm x c) ^ 2 * ∑ i, (x i - c i) ^ 2) := by
          rw [Finset.mul_sum]
          congr 1
          exact Finset.sum_congr rfl fun i _ => by rw [h1 i, mul_pow]
      _ = (r / l2BallNorm x c) * l2BallNorm x c := by
          rw [Real.sqrt_mul (sq_nonneg _), Real.sqrt_sq hfrac]
          rfl
      _ = r := div_mul_cancel₀ r hNne
  refine ⟨hin, fun h => ⟨hout h, houtdist h⟩, ?_⟩
  rcases le_or_lt (l2BallNorm x c) r with h | h
  · rw [hin h]
    exact h
  · rw [houtdist h]

/-- Witness for C10 at `x = centre = 0`, `radius = 0` on `Fin 1`. -/
theorem proj_l2_ball_correct_witness :
    (0 : ℝ) ≤ 0 ∧
      l2BallNorm (proj_l2_ball (fun _ : Fin 1 => (0 : ℝ)) (fun _ => 0) 0)
        (fun _ => 0) ≤ 0 :=
  ⟨le_refl 0,
    (proj_l2_ball_correct (fun _ : Fin 1 => (0 : ℝ)) (fun _ => 0) 0 (le_refl 0)).2.2⟩

/-! ## C5: Fourier-domain diagonalization of the TV normal operator -/

theorem natCast_pred_eq_neg_one (n : ℕ) [NeZero n] :
    ((n - 1 : ℕ) : ZMod n) = -1 := by
  have h1 : 1 ≤ n := Nat.one_le_iff_ne_zero.mpr (NeZero.ne n)
  rw [Nat.cast_sub h1, ZMod.natCast_self, Nat.cast_one, zero_sub]

theorem zmod_one_ne_zero {n : ℕ} (hn : 3 ≤ n) : (1 : ZMod n) ≠ 0 := by
  haveI : Fact (1 < n) := ⟨by omega⟩
  exact one_ne_zero

theorem zmod_neg_one_ne_zero {n : ℕ} (hn : 3 ≤ n) : (-1 : ZMod n) ≠ 0 :=
  neg_ne_zero.mpr (zmod_one_ne_zero hn)

theorem zmod_one_ne_neg_one {n : ℕ} [NeZero n] (hn : 3 ≤ n) :
    (1 : ZMod n) ≠ -1 := by
  intro h
  have h2 : ((2 : ℕ) : ZMod n) = 0 := by
    push_cast
    linear_combination h
  rw [ZMod.natCast_zmod_eq_zero_iff_dvd] at h2
  have h3 := Nat.le_of_dvd (by norm_num) h2
  omega

theorem stencil_eq {n : ℕ} [NeZero n] (hn : 3 ≤ n) (j : Freq n n) :
    TVAnalysisPeriodic.stencil n j =
      (if j = ((0 : ZMod n), (0 : ZMod n)) then 4 else 0) +
        (if j = (0, 1) then -1 else 0) + (if j = (1, 0) then -1 else 0) +
        (if j = (0, -1) then -1 else 0) + (if j = (-1, 0) then -1 else 0) := by
  have e1 : (1 : ZMod n) ≠ 0 := zmod_one_ne_zero hn
  have e2 : (-1 : ZMod n) ≠ 0 := zmod_neg_one_ne_zero hn
  have e3 : (1 : ZMod n) ≠ -1 := zmod_one_ne_neg_one hn
  have e4 : (0 : ZMod n) ≠ 1 := fun h => e1 h.symm
  have e5 : (0 : ZMod n) ≠ -1 := fun h => e2 h.symm
  have e6 : (-1 : ZMod n) ≠ 1 := fun h => e3 h.symm
  unfold TVAnalysisPeriodic.stencil
  by_cases h1 : j = ((0 : ZMod n), (0 : ZMod n))
  · simp [h1, Prod.ext_iff, e4, e5]
  · by_cases h2 : j = (0, 1)
    · simp [h2, Prod.ext_iff, e1, e4, e5, e3]
    · by_cases h3 : j = (1, 0)
      · simp [h3, Prod.ext_iff, e1, e6, e3]
      · by_cases h4 : j = (0, -1)
        · simp [h4, Prod.ext_iff, e2, e5, e6]
        · by_cases h5 : j = (-1, 0)
          · simp [h5, Prod.ext_iff, e2, e6]
          · simp [h1, h2, h3, h4, h5]

theorem sum_single_mul_ker {n : ℕ} [NeZero n] (t κ : Freq n n) (c : ℂ) :
    ∑ j : Freq n n, (if j = t then c else 0) * fourierKer j κ =
      c * fourierKer t κ := by
  rw [Finset.sum_congr rfl fun j _ => by rw [ite_mul, zero_mul]]
  rw [Finset.sum_ite_eq' Finset.univ t fun j => c * fourierKer j κ]
  simp

/-- The unnormalized DFT of the 5-point stencil. -/
theorem torchFFT_stencil {n : ℕ} [NeZero n] (hn : 3 ≤ n) (κ : Freq n n) :
    torchFFT (TVAnalysisPeriodic.stencil n) κ =
      4 - fourierKer (0, 1) κ - fourierKer (1, 0) κ -
        fourierKer (0, -1) κ - fourierKer (-1, 0) κ := by
  unfold torchFFT
  rw [Finset.sum_congr rfl fun j _ => by rw [stencil_eq hn j]]
  simp only [add_mul, Finset.sum_add_distrib]
  rw [sum_single_mul_ker, sum_single_mul_ker, sum_single_mul_ker,
    sum_single_mul_ker, sum_single_mul_ker]
  have h0 : fourierKer ((0 : ZMod n), (0 : ZMod n)) κ = 1 := fourierKer_zero_left κ
  rw [h0]
  ring

/-- Reindexing a DFT sum along a translation of the signal. -/
theorem torchFFT_shift {n1 n2 : ℕ} [NeZero n1] [NeZero n2]
    (x : Freq n1 n2 → ℂ) (t κ : Freq n1 n2) :
    ∑ j : Freq n1 n2, x (j + t) * fourierKer j κ =
      fourierKer (-t) κ * torchFFT x κ := by
  have h1 : ∑ j : Freq n1 n2, x (j + t) * fourierKer j κ =
      ∑ j : Freq n1 n2, x j * fourierKer (j - t) κ := by
    apply Fintype.sum_equiv (Equiv.addRight t)
    intro j
    rw [Equiv.coe_addRight, add_sub_cancel_right]
  rw [h1,
    Finset.sum_congr rfl fun j _ => by
      rw [sub_eq_add_neg, fourierKer_add_left, ← mul_assoc]]
  rw [← Finset.sum_mul, mul_comm]
  rfl

/-- Frequency-domain form of the TV normal operator: multiplying the DFT
by the stencil DFT equals the DFT of the 5-point combination. -/
theorem torchFFT_stencil_conv {n : ℕ} [NeZero n] (hn : 3 ≤ n)
    (u : Freq n n → ℂ) (κ : Freq n n) :
    torchFFT (tvFivePoint u) κ =
      torchFFT (TVAnalysisPeriodic.stencil n) κ * torchFFT u κ := by
  rw [torchFFT_stencil hn]
  have hsh : ∀ t : Freq n n, ∑ j : Freq n n, u (j + t) * fourierKer j κ =
      fourierKer (-t) κ * torchFFT u κ := fun t => torchFFT_shift u t κ
  have h1 : ∑ j : Freq n n, u (j.1 - 1, j.2) * fourierKer j κ =
      fourierKer ((1 : ZMod n), (0 : ZMod n)) κ * torchFFT u κ := by
    have := hsh ((-1 : ZMod n), (0 : ZMod n))
    rw [Finset.sum_congr rfl fun j _ => by
      rw [show (j.1 - 1, j.2) = j + ((-1 : ZMod n), (0 : ZMod n)) from
        Prod.ext (by simp [sub_eq_add_neg]) (by simp)]]
    rw [this, show -((-1 : ZMod n), (0 : ZMod n)) = ((1 : ZMod n), (0 : ZMod n)) from
      Prod.ext (by simp) (by simp)]
  have h2 : ∑ j : Freq n n, u (j.1 + 1, j.2) * fourierKer j κ =
      fourierKer ((-1 : ZMod n), (0 : ZMod n)) κ * torchFFT u κ := by
    rw [Finset.sum_congr rfl fun j _ => by
      rw [show (j.1 + 1, j.2) = j + ((1 : ZMod n), (0 : ZMod n)) from
        Prod.ext (by simp) (by simp)]]
    rw [hsh ((1 : ZMod n), (0 : ZMod n)),
      show -((1 : ZMod n), (0 : ZMod n)) = ((-1 : ZMod n), (0 : ZMod n)) from
      Prod.ext (by simp) (by simp)]
  have h3 : ∑ j : Freq n n, u (j.1, j.2 - 1) * fourierKer j κ =
      fourierKer ((0 : ZMod n), (1 : ZMod n)) κ * torchFFT u κ := by
    rw [Finset.sum_congr rfl fun j _ => by
      rw [show (j.1, j.2 - 1) = j + ((0 : ZMod n), (-1 : ZMod n)) from
        Prod.ext (by simp) (by simp [sub_eq_add_neg])]]
    rw [hsh ((0 : ZMod n), (-1 : ZMod n)),
      show -((0 : ZMod n), (-1 : ZMod n)) = ((0 : ZMod n), (1 : ZMod n)) from
      Prod.ext (by simp) (by simp)]
  have h4 : ∑ j : Freq n n, u (j.1, j.2 + 1) * fourierKer j κ =
      fourierKer ((0 : ZMod n), (-1 : ZMod n)) κ * torchFFT u κ := by
    rw [Finset.sum_congr rfl fun j _ => by
      rw [show (j.1, j.2 + 1) = j + ((0 : ZMod n), (1 : ZMod n)) from
        Prod.ext (by simp) (by simp)]]
    rw [hsh ((0 : ZMod n), (1 : ZMod n)),
      show -((0 : ZMod n), (1 : ZMod n)) = ((0 : ZMod n), (-1 : ZMod n)) from
      Prod.ext (by simp) (by simp)]
  show ∑ j : Freq n n, (4 * u j - u (j.1 - 1, j.2) - u (j.1 + 1, j.2) -
      u (j.1, j.2 - 1) - u (j.1, j.2 + 1)) * fourierKer j κ = _
  simp only [sub_mul, Finset.sum_sub_distrib, mul_assoc]
  rw [← Finset.mul_sum, h1, h2, h3, h4]
  show (4 : ℂ) * torchFFT u κ - _ - _ - _ - _ = _
  ring

theorem sub_shift_cancel_f_sub {n : ℕ} (a b : ZMod n) :
    a - ((n / 2 : ℕ) : ZMod n) - b - (((n + 1) / 2 : ℕ) : ZMod n) = a - b := by
  rw [sub_right_comm a _ b, sub_shift_cancel_f]

theorem sub_shift_cancel_f_add {n : ℕ} (a b : ZMod n) :
    a - ((n / 2 : ℕ) : ZMod n) + b - (((n + 1) / 2 : ℕ) : ZMod n) = a + b := by
  rw [sub_add_eq_add_sub, sub_shift_cancel_f]

/-- The 5-point combination commutes with the fft shifts. -/
theorem tvFivePoint_fftshift2 {n : ℕ} (x : Freq n n → ℂ) :
    fftshift2 (tvFivePoint (ifftshift2 x)) = tvFivePoint x := by
  funext p
  unfold fftshift2 tvFivePoint ifftshift2
  dsimp only
  simp only [sub_shift_cancel_f, sub_shift_cancel_f_sub, sub_shift_cancel_f_add]

/-- Pointwise formula of `adj ∘ dot` for the TV operator on square
domains. -/
theorem tv_adj_dot_eq {n : ℕ} [NeZero n] (x : Freq n n → ℂ) :
    TVAnalysisPeriodic.adj (TVAnalysisPeriodic.dot x) = tvFivePoint x := by
  have c0 : ∀ q : Freq n n, TVAnalysisPeriodic.dot x ((0 : Fin 2), q) =
      circshift_row x 1 q - x q := fun q => if_pos rfl
  have c1 : ∀ q : Freq n n, TVAnalysisPeriodic.dot x ((1 : Fin 2), q) =
      circshift_col x 1 q - x q := by
    intro q
    simp [TVAnalysisPeriodic.dot]
  have r1 : ∀ a : ZMod n, a + -1 + 1 = a := fun a => by ring
  have r2 : ∀ a : ZMod n, a + -1 = a - 1 := fun a => by ring
  have r3 : ∀ a : ZMod n, a - 1 + 1 = a := fun a => by ring
  funext p
  simp only [TVAnalysisPeriodic.adj, circshift_row, circshift_col,
    natCast_pred_eq_neg_one, Nat.cast_one, c0, c1]
  simp only [circshift_row, circshift_col, Nat.cast_one, r1, r2, r3]
  unfold tvFivePoint
  ring

/-- Claim C5. On the (square) configured domain with `n ≥ 3`,
`adj (dot x)` equals the inverse 2D DFT of the elementwise complex
product of `get_fourier_kernel()` with the 2D DFT of `x`. -/
theorem tv_kernel_diagonalization (n : ℕ) [NeZero n] (hn : 3 ≤ n)
    (x : Freq n n → ℂ) :
    TVAnalysisPeriodic.adj (TVAnalysisPeriodic.dot x) =
      ifft2 (fun k =>
        mult_complex (TVAnalysisPeriodic.get_fourier_kernel n k) (fft2 x k)) := by
  have hmul : (fun k =>
      mult_complex (TVAnalysisPeriodic.get_fourier_kernel n k) (fft2 x k)) =
      fft2 (tvFivePoint x) := by
    funext k
    rw [mult_complex_eq_mul]
    show TVAnalysisPeriodic.get_fourier_kernel n k * fft2 x k = fft2 (tvFivePoint x) k
    unfold TVAnalysisPeriodic.get_fourier_kernel fft2 fftshift2
    dsimp only
    rw [← mul_div_assoc, ← torchFFT_stencil_conv hn, ← tvFivePoint_fftshift2 x]
    rw [show ifftshift2 (fftshift2 (tvFivePoint (ifftshift2 x))) =
      tvFivePoint (ifftshift2 x) from ifftshift2_fftshift2 _]
  rw [tv_adj_dot_eq, hmul, ifft2_fft2]

/-- Witness for C5 at `n = 4` and the zero image. -/
theorem tv_kernel_diagonalization_witness :
    3 ≤ 4 ∧
      TVAnalysisPeriodic.adj (TVAnalysisPeriodic.dot (fun _ : Freq 4 4 => (0 : ℂ))) =
        ifft2 (fun k =>
          mult_complex (TVAnalysisPeriodic.get_fourier_kernel 4 k)
            (fft2 (fun _ : Freq 4 4 => (0 : ℂ)) k)) :=
  ⟨by norm_num, tv_kernel_diagonalization 4 (by norm_num) (fun _ => 0)⟩

/-! ## C7: Haar wavelet perfect reconstruction -/

/-- Single-level 1D Haar perfect reconstruction with zero extension. -/
theorem haarSyn_lo_hi {m : ℕ} (x : Fin (2 * m) → ℝ) :
    haarSyn (haarLo x) (haarHi x) = x := by
  have hs : Real.sqrt 2 * Real.sqrt 2 = 2 := Real.mul_self_sqrt (by norm_num)
  have hne : Real.sqrt 2 ≠ 0 := by positivity
  funext i
  unfold haarSyn haarLo haarHi
  by_cases h : i.1 % 2 = 0
  · rw [if_pos h]
    have e0 : (⟨2 * (i.1 / 2), by have := i.2; omega⟩ : Fin (2 * m)) = i :=
      Fin.ext (show 2 * (i.1 / 2) = i.1 by omega)
    rw [e0]
    field_simp
  · rw [if_neg h]
    have e1 : (⟨2 * (i.1 / 2) + 1, by have := i.2; omega⟩ : Fin (2 * m)) = i :=
      Fin.ext (show 2 * (i.1 / 2) + 1 = i.1 by omega)
    rw [e1]
    field_simp

theorem S1_H1 {a b : ℕ} (z : GridR (2 * a) b) : S1 (H1lo z) (H1hi z) = z := by
  funext u j
  show haarSyn (fun i => H1lo z i j) (fun i => H1hi z i j) u = z u j
  have h1 : (fun i => H1lo z i j) = haarLo (fun u2 => z u2 j) := rfl
  have h2 : (fun i => H1hi z i j) = haarHi (fun u2 => z u2 j) := rfl
  rw [h1, h2, haarSyn_lo_hi]

theorem S2_H2 {a b : ℕ} (x : GridR a (2 * b)) : S2 (H2lo x) (H2hi x) = x := by
  funext i
  show haarSyn (haarLo (x i)) (haarHi (x i)) = x i
  rw [haarSyn_lo_hi]

/-- Single-level 2D Haar perfect reconstruction. -/
theorem idwt2_dwt2 {a b : ℕ} (x : GridR (2 * a) (2 * b)) :
    idwt2 (dwtLL x) (dwtLH x) (dwtHL x) (dwtHH x) = x := by
  unfold idwt2 dwtLL dwtLH dwtHL dwtHH
  rw [S1_H1, S1_H1, S2_H2]

/-- Multi-level Haar perfect reconstruction. -/
theorem waverec2_wavedec2 (a b : ℕ) :
    ∀ (L : ℕ) (x : GridR (wdim L a) (wdim L b)),
      waverec2 a b L (wavedec2 a b L x) = x
  | 0, x => rfl
  | L + 1, x => by
    show idwt2 (waverec2 a b L (wavedec2 a b L (dwtLL x))) (dwtLH x) (dwtHL x)
        (dwtHH x) = x
    rw [waverec2_wavedec2 a b L (dwtLL x)]
    exact idwt2_dwt2 x

/-- Claim C7. For every real image of the operator's domain shape (a side
admitting the fixed decomposition level) — and channelwise for complex
2-channel inputs — `Wavelet.adj (Wavelet.dot x) = x`: with zero-extension
and the orthogonal Haar basis, `adj` is the exact inverse of `dot`. -/
theorem wavelet_roundtrip (a b level : ℕ)
    (x : GridR (wdim level a) (wdim level b))
    (z : GridR (wdim level a) (wdim level b) × GridR (wdim level a) (wdim level b)) :
    Wavelet.adj a b level (Wavelet.dot a b level x) = x ∧
      Wavelet.adjC a b level (Wavelet.dotC a b level z) = z := by
  constructor
  · exact waverec2_wavedec2 a b level x
  · unfold Wavelet.adjC Wavelet.dotC Wavelet.adj Wavelet.dot
    rw [waverec2_wavedec2, waverec2_wavedec2]
